import Mathlib

/-!
Shallow embedding of the `module` package (module.go): a facade over the
App Engine modules surface with a legacy RPC path and a modern Admin-API
path selected per call by an environment flag.

Modelling conventions:
* The process environment is a snapshot `Env : String → String` (`os.Getenv`).
* `float64` traffic allocations are modelled as rationals: the code only
  compares allocations with `==` and `>` against each other and the literals
  `1.0` / `-1.0`, and on non-NaN binary floating-point values those
  comparisons coincide with the exact comparisons of the rationals denoted.
* Go map iteration order is unspecified, so an allocation map is embedded as
  a list of (version id, allocation) entries in one enumeration order;
  order-independence is then a statement over permutations of that list.
* Remote calls are given to each function as an explicit outcome
  (`Except` of the fetched resource); a nil pointer dereference is modelled
  by an `Option` result where `none` is the fault.
-/

namespace AppengineModule

/-- Environment snapshot: the value `os.Getenv` returns for each variable. -/
def Env : Type := String → String

/-- `strings.ToLower`: lower-case every character (the flag values compared
against "true" are ASCII, where Go and this per-character map agree). -/
def strToLower (s : String) : String :=
  String.mk (s.data.map Char.toLower)

/-- `useAdminAPI` (module.go line 59): the Admin API implementation is
enabled iff the flag lower-cases to exactly "true". -/
def useAdminAPI (env : Env) : Bool :=
  strToLower (env "MODULES_USE_ADMIN_API") == "true"

/-- `getModuleorDefault` (line 50): current service name, defaulting to
"default" when the variable is empty. -/
def getModuleorDefault (env : Env) : String :=
  let module := env "GAE_SERVICE"
  if module == "" then "default" else module

/-- The substring after the first occurrence of the character `sep`:
models Go `s[strings.Index(s, string sep)+1:]` when `sep` occurs in `s`. -/
def afterChar (sep : Char) (s : String) : String :=
  String.mk ((s.data.dropWhile (fun c => c ≠ sep)).tail)

/-- The application id the fallback branch of `getProjectID` reads:
`GAE_APPLICATION`, else `APPLICATION_ID` (lines 33-36). -/
def appIDof (env : Env) : String :=
  let a := env "GAE_APPLICATION"
  if a = "" then env "APPLICATION_ID" else a

/-- `getProjectID` (lines 29-48): explicit project id, else derive from the
application id by taking the substring after "~" (else the empty string),
then stripping through the first ":" when present. -/
def getProjectID (env : Env) : String :=
  let projectID := env "GOOGLE_CLOUD_PROJECT"
  if projectID = "" then
    let appID := appIDof env
    let p1 := if '~' ∈ appID.data then afterChar '~' appID else ""
    let p2 := if ':' ∈ p1.data then afterChar ':' p1 else p1
    p2
  else projectID

/-- Which implementation path a call takes. -/
inductive Path where
  | legacy
  | modern
  deriving DecidableEq

/-- The seven public operations of the facade. -/
inductive Op where
  | list
  | numInstances
  | setNumInstances
  | versions
  | defaultVersion
  | start
  | stop
  deriving DecidableEq

/-- Every public function opens with `if !useAdminAPI() { return ...Legacy }`
and otherwise runs the modern body (e.g. lines 76-78, 105-107, 224-226). -/
def dispatch (_o : Op) (env : Env) : Path :=
  if !useAdminAPI env then Path.legacy else Path.modern

/-- `setServingStatus` (lines 332-337) chooses the method name from the
target status. -/
def setServingStatusMethodName (status : String) : String :=
  if status = "SERVING" then "start_version"
  else if status = "STOPPED" then "stop_version"
  else ""

/-- The method-name token each operation passes to `getAdminService`
(call sites at lines 80, 115, 159, 196, 231, and via `setServingStatus`). -/
def methodNameOf : Op → String
  | .list => "get_modules"
  | .numInstances => "get_num_instances"
  | .setNumInstances => "set_num_instances"
  | .versions => "get_versions"
  | .defaultVersion => "get_default_version"
  | .start => setServingStatusMethodName "SERVING"
  | .stop => setServingStatusMethodName "STOPPED"

/-- `getAdminService` (line 65) tags the outbound client with a per-method
user agent. -/
def userAgentOf (o : Op) : String :=
  "appengine-modules-api-go-client/" ++ methodNameOf o

/-- `admin.ManualScaling`: the manual-scaling block of a version resource. -/
structure ManualScaling where
  instances : Int
  deriving DecidableEq

/-- `admin.Version` as this package builds and reads it: an optional
manual-scaling block and a serving status (zero value: absent / empty). -/
structure Version where
  manualScaling : Option ManualScaling := none
  servingStatus : String := ""
  deriving DecidableEq

/-- The modern path of `NumInstances` after the version resource has been
fetched successfully (lines 123-126). -/
def numInstancesModern (version : String) (v : Version) : Except String Int :=
  match v.manualScaling with
  | some ms => Except.ok ms.instances
  | none =>
    Except.error ("module: version " ++ version ++ " is not using manual scaling")

/-- A partial-update request: the payload sent and the update mask
restricting which fields the patch touches. -/
structure PatchRequest where
  payload : Version
  updateMask : String
  deriving DecidableEq

/-- The patch `SetNumInstances` issues on the modern path (lines 163-169). -/
def setNumInstancesPatch (instances : Int) : PatchRequest :=
  { payload := { manualScaling := some { instances := instances } }
    updateMask := "manualScaling.instances" }

/-- The patch `setServingStatus` issues (lines 348-352). -/
def setServingStatusPatch (status : String) : PatchRequest :=
  { payload := { servingStatus := status }
    updateMask := "servingStatus" }

/-- `Start` delegates to `setServingStatus` with "SERVING" (line 294). -/
def startPatch : PatchRequest := setServingStatusPatch "SERVING"

/-- `Stop` delegates to `setServingStatus` with "STOPPED" (line 315). -/
def stopPatch : PatchRequest := setServingStatusPatch "STOPPED"

/-- `admin.TrafficSplit`: the allocation map (possibly nil), embedded as an
entry list in one enumeration order. -/
structure TrafficSplit where
  allocations : Option (List (String × ℚ))

/-- `admin.Service` as `DefaultVersion` reads it: an optional traffic split. -/
structure Service where
  split : Option TrafficSplit

/-- A failure of a remote Admin-API call: either a `googleapi.Error`
carrying a status code, or any other error value. -/
inductive RemoteErr where
  | googleapi (code : Int) (info : String)
  | other (info : String)
  deriving DecidableEq

/-- An error returned by the facade: either one built by this package
(`fmt.Errorf`, carried as its message) or a propagated remote error. -/
inductive ModuleErr where
  | msg (s : String)
  | remote (e : RemoteErr)
  deriving DecidableEq

/-- The `range` loop of `DefaultVersion` over the allocation entries
(lines 250-267): `break` on an allocation of exactly 1, otherwise track the
running best (version, allocation) pair with a lexicographic tie-break. -/
def scanAllocations : List (String × ℚ) → String → ℚ → String
  | [], retVersion, _ => retVersion
  | (version, allocation) :: rest, retVersion, maxAlloc =>
    if allocation = 1 then version
    else if allocation > maxAlloc then scanAllocations rest version allocation
    else if allocation = maxAlloc then
      scanAllocations rest (if version < retVersion then version else retVersion) maxAlloc
    else scanAllocations rest retVersion maxAlloc

/-- The modern path of `DefaultVersion` after dispatch and identity
resolution (lines 235-275), given the outcome of the service fetch. -/
def DefaultVersionModern (module : String) (fetch : Except RemoteErr Service) :
    Except ModuleErr String :=
  match fetch with
  | .error (.googleapi code info) =>
    if code = 404 then
      .error (.msg ("module: Module \x27" ++ module ++ "\x27 not found"))
    else
      .error (.remote (.googleapi code info))
  | .error (.other info) => .error (.remote (.other info))
  | .ok service =>
    let retVersion :=
      match service.split with
      | none => ""
      | some split =>
        match split.allocations with
        | none => ""
        | some allocations => scanAllocations allocations "" (-1)
    if retVersion = "" then
      .error (.msg
        ("module: could not determine default version for module \x27" ++ module ++ "\x27"))
    else
      .ok retVersion

/-- The legacy response shape `GetNumInstancesResponse`: `Instances` is a
pointer field, so possibly absent. -/
structure GetNumInstancesResponse where
  instances : Option Int
  deriving DecidableEq

/-- `NumInstancesLegacy` (lines 129-143) given the outcome of
`internal.Call`; the result `none` models the nil-pointer dereference fault
of `*res.Instances`. -/
def NumInstancesLegacyDeref (callResult : Except String GetNumInstancesResponse) :
    Option (Except String Int) :=
  match callResult with
  | .error e => some (.error e)
  | .ok res =>
    match res.instances with
    | some n => some (.ok n)
    | none => none

/-! ### Lemmas about the allocation scan -/

/-- One iteration of the running-best update of the scan in the non-break
case (lines 258-266), as a fold step. -/
def bestStep (acc e : String × ℚ) : String × ℚ :=
  if e.2 > acc.2 then e
  else if e.2 = acc.2 then (if e.1 < acc.1 then e.1 else acc.1, acc.2)
  else acc

lemma bestStep_gt {acc e : String × ℚ} (h : acc.2 < e.2) : bestStep acc e = e := by
  simp [bestStep, h]

lemma bestStep_eq {acc e : String × ℚ} (h : e.2 = acc.2) :
    bestStep acc e = (if e.1 < acc.1 then e.1 else acc.1, acc.2) := by
  simp [bestStep, h]

lemma bestStep_lt {acc e : String × ℚ} (h : e.2 < acc.2) : bestStep acc e = acc := by
  have h1 : ¬ acc.2 < e.2 := not_lt.mpr h.le
  have h2 : e.2 ≠ acc.2 := ne_of_lt h
  simp [bestStep, h1, h2]

lemma bestStep_gt' {r v : String} {m a : ℚ} (h : m < a) :
    bestStep (r, m) (v, a) = (v, a) :=
  bestStep_gt (show ((r, m)).2 < ((v, a)).2 from h)

lemma bestStep_eq' {r v : String} {m a : ℚ} (h : a = m) :
    bestStep (r, m) (v, a) = (if v < r then v else r, m) := by
  rw [bestStep_eq (show ((v, a)).2 = ((r, m)).2 from h)]

lemma bestStep_lt' {r v : String} {m a : ℚ} (h : a < m) :
    bestStep (r, m) (v, a) = (r, m) :=
  bestStep_lt (show ((v, a)).2 < ((r, m)).2 from h)

lemma if_lt_eq_min (v r : String) : (if v < r then v else r) = min v r := by
  rcases lt_trichotomy v r with h | h | h
  · simp [h, min_eq_left h.le]
  · simp [h]
  · simp [not_lt.mpr h.le, min_eq_right h.le]

lemma bestStep_comm (acc e₁ e₂ : String × ℚ) :
    bestStep (bestStep acc e₁) e₂ = bestStep (bestStep acc e₂) e₁ := by
  obtain ⟨r, m⟩ := acc
  obtain ⟨v₁, a₁⟩ := e₁
  obtain ⟨v₂, a₂⟩ := e₂
  rcases lt_trichotomy a₁ m with h₁ | h₁ | h₁
  · rw [bestStep_lt (show (v₁, a₁).2 < (r, m).2 from h₁)]
    rcases lt_trichotomy a₂ m with h₂ | h₂ | h₂
    · rw [bestStep_lt (show (v₂, a₂).2 < (r, m).2 from h₂),
        bestStep_lt (show (v₁, a₁).2 < (r, m).2 from h₁)]
    · rw [bestStep_eq (show (v₂, a₂).2 = (r, m).2 from h₂),
        bestStep_lt (show (v₁, a₁).2 <
          ((if (v₂, a₂).1 < (r, m).1 then (v₂, a₂).1 else (r, m).1, (r, m).2)).2 from h₁)]
    · rw [bestStep_gt (show (r, m).2 < (v₂, a₂).2 from h₂),
        bestStep_lt (show (v₁, a₁).2 < (v₂, a₂).2 from lt_trans h₁ h₂)]
  · rw [bestStep_eq (show (v₁, a₁).2 = (r, m).2 from h₁)]
    rcases lt_trichotomy a₂ m with h₂ | h₂ | h₂
    · rw [bestStep_lt (show (v₂, a₂).2 <
          ((if (v₁, a₁).1 < (r, m).1 then (v₁, a₁).1 else (r, m).1, (r, m).2)).2 from h₂),
        bestStep_lt (show (v₂, a₂).2 < (r, m).2 from h₂),
        bestStep_eq (show (v₁, a₁).2 = (r, m).2 from h₁)]
    · rw [bestStep_eq (show (v₂, a₂).2 =
          ((if (v₁, a₁).1 < (r, m).1 then (v₁, a₁).1 else (r, m).1, (r, m).2)).2 from h₂),
        bestStep_eq (show (v₂, a₂).2 = (r, m).2 from h₂),
        bestStep_eq (show (v₁, a₁).2 =
          ((if (v₂, a₂).1 < (r, m).1 then (v₂, a₂).1 else (r, m).1, (r, m).2)).2 from h₁)]
      simp only [Prod.mk.injEq, and_true]
      rw [if_lt_eq_min, if_lt_eq_min, if_lt_eq_min, if_lt_eq_min]
      exact min_left_comm v₂ v₁ r
    · rw [bestStep_gt (show
          ((if (v₁, a₁).1 < (r, m).1 then (v₁, a₁).1 else (r, m).1, (r, m).2)).2 <
            (v₂, a₂).2 from h₂),
        bestStep_gt (show (r, m).2 < (v₂, a₂).2 from h₂),
        bestStep_lt (show (v₁, a₁).2 < (v₂, a₂).2 from h₁ ▸ h₂)]
  · rw [bestStep_gt (show (r, m).2 < (v₁, a₁).2 from h₁)]
    rcases lt_trichotomy a₂ a₁ with h₂ | h₂ | h₂
    · rw [bestStep_lt (show (v₂, a₂).2 < (v₁, a₁).2 from h₂)]
      rcases lt_trichotomy a₂ m with h₃ | h₃ | h₃
      · rw [bestStep_lt (show (v₂, a₂).2 < (r, m).2 from h₃),
          bestStep_gt (show (r, m).2 < (v₁, a₁).2 from h₁)]
      · rw [bestStep_eq (show (v₂, a₂).2 = (r, m).2 from h₃),
          bestStep_gt (show
            ((if (v₂, a₂).1 < (r, m).1 then (v₂, a₂).1 else (r, m).1, (r, m).2)).2 <
              (v₁, a₁).2 from h₁)]
      · rw [bestStep_gt (show (r, m).2 < (v₂, a₂).2 from h₃),
          bestStep_gt (show (v₂, a₂).2 < (v₁, a₁).2 from h₂)]
    · rw [bestStep_eq (show (v₂, a₂).2 = (v₁, a₁).2 from h₂),
        bestStep_gt (show (r, m).2 < (v₂, a₂).2 from h₁.trans_eq h₂.symm),
        bestStep_eq (show (v₁, a₁).2 = (v₂, a₂).2 from h₂.symm)]
      simp only [Prod.mk.injEq]
      constructor
      · rw [if_lt_eq_min, if_lt_eq_min]
        exact min_comm v₂ v₁
      · exact h₂.symm
    · rw [bestStep_gt (show (v₁, a₁).2 < (v₂, a₂).2 from h₂),
        bestStep_gt (show (r, m).2 < (v₂, a₂).2 from lt_trans h₁ h₂),
        bestStep_lt (show (v₁, a₁).2 < (v₂, a₂).2 from h₂)]

lemma foldl_bestStep_perm {l₁ l₂ : List (String × ℚ)} (p : l₁.Perm l₂) :
    ∀ acc, l₁.foldl bestStep acc = l₂.foldl bestStep acc := by
  induction p with
  | nil => intro acc; rfl
  | cons x _ ih => intro acc; simp only [List.foldl_cons]; exact ih _
  | swap x y l => intro acc; simp only [List.foldl_cons]; rw [bestStep_comm]
  | trans _ _ ih₁ ih₂ => intro acc; rw [ih₁, ih₂]

/-- When no entry has allocation exactly 1, the scan never breaks and is the
pure fold of `bestStep`. -/
lemma scanAllocations_eq_foldl :
    ∀ (l : List (String × ℚ)) (r : String) (m : ℚ), (∀ p ∈ l, p.2 ≠ 1) →
      scanAllocations l r m = (l.foldl bestStep (r, m)).1
  | [], _, _, _ => rfl
  | (v, a) :: rest, r, m, h => by
    have ha : a ≠ 1 := h (v, a) (List.mem_cons_self _ _)
    have hrest : ∀ p ∈ rest, p.2 ≠ 1 := fun p hp => h p (List.mem_cons_of_mem _ hp)
    simp only [scanAllocations, List.foldl_cons, if_neg ha]
    rcases lt_trichotomy m a with h1 | h1 | h1
    · rw [if_pos h1, bestStep_gt (show ((r, m)).2 < ((v, a)).2 from h1)]
      exact scanAllocations_eq_foldl rest v a hrest
    · have hng : ¬ a > m := by rw [h1]; exact lt_irrefl a
      rw [if_neg hng, if_pos h1.symm,
        bestStep_eq (show ((v, a)).2 = ((r, m)).2 from h1.symm)]
      exact scanAllocations_eq_foldl rest _ m hrest
    · rw [if_neg (not_lt.mpr h1.le), if_neg (ne_of_lt h1),
        bestStep_lt (show ((v, a)).2 < ((r, m)).2 from h1)]
      exact scanAllocations_eq_foldl rest r m hrest

/-- When the entry carrying allocation 1 is unique in key, the scan returns
its key whatever the accumulator. -/
lemma scanAllocations_of_one (v₀ : String) :
    ∀ (l : List (String × ℚ)) (r : String) (m : ℚ),
      (v₀, (1 : ℚ)) ∈ l → (∀ p ∈ l, p.2 = 1 → p.1 = v₀) →
      scanAllocations l r m = v₀
  | [], _, _, hmem, _ => absurd hmem (List.not_mem_nil _)
  | (v, a) :: rest, r, m, hmem, huniq => by
    by_cases ha : a = 1
    · have : v = v₀ := huniq (v, a) (List.mem_cons_self _ _) ha
      simp [scanAllocations, ha, this]
    · have hmem' : (v₀, (1 : ℚ)) ∈ rest := by
        rcases List.mem_cons.mp hmem with hh | ht
        · exact absurd (congrArg Prod.snd hh).symm ha
        · exact ht
      have huniq' : ∀ p ∈ rest, p.2 = 1 → p.1 = v₀ :=
        fun p hp => huniq p (List.mem_cons_of_mem _ hp)
      simp only [scanAllocations, if_neg ha]
      rcases lt_trichotomy m a with h1 | h1 | h1
      · rw [if_pos h1]
        exact scanAllocations_of_one v₀ rest v a hmem' huniq'
      · have hng : ¬ a > m := by rw [h1]; exact lt_irrefl a
        rw [if_neg hng, if_pos h1.symm]
        exact scanAllocations_of_one v₀ rest _ m hmem' huniq'
      · rw [if_neg (not_lt.mpr h1.le), if_neg (ne_of_lt h1)]
        exact scanAllocations_of_one v₀ rest r m hmem' huniq'

/-- The scan short-circuits at the first entry carrying allocation 1. -/
lemma scanAllocations_append_one (v : String) :
    ∀ (pre post : List (String × ℚ)) (r : String) (m : ℚ), (∀ q ∈ pre, q.2 ≠ 1) →
      scanAllocations (pre ++ (v, 1) :: post) r m = v
  | [], _, _, _, _ => by simp [scanAllocations]
  | (w, b) :: pre, post, r, m, h => by
    have hb : b ≠ 1 := h (w, b) (List.mem_cons_self _ _)
    have hpre : ∀ q ∈ pre, q.2 ≠ 1 := fun q hq => h q (List.mem_cons_of_mem _ hq)
    simp only [List.cons_append, scanAllocations, if_neg hb]
    rcases lt_trichotomy m b with h1 | h1 | h1
    · rw [if_pos h1]
      exact scanAllocations_append_one v pre post w b hpre
    · have hng : ¬ b > m := by rw [h1]; exact lt_irrefl b
      rw [if_neg hng, if_pos h1.symm]
      exact scanAllocations_append_one v pre post _ m hpre
    · rw [if_neg (not_lt.mpr h1.le), if_neg (ne_of_lt h1)]
      exact scanAllocations_append_one v pre post r m hpre

/-- Characterization of the running-best fold: the allocation component
dominates the accumulator and every entry, the result is the accumulator or
an entry of the list, and the version component is lexicographically least
among the candidates achieving the final allocation. -/
lemma foldl_bestStep_spec (l : List (String × ℚ)) :
    ∀ (r : String) (m : ℚ),
      m ≤ (l.foldl bestStep (r, m)).2
      ∧ (∀ p ∈ l, p.2 ≤ (l.foldl bestStep (r, m)).2)
      ∧ (l.foldl bestStep (r, m) = (r, m) ∨ ∃ p ∈ l, l.foldl bestStep (r, m) = p)
      ∧ ((l.foldl bestStep (r, m)).2 = m → (l.foldl bestStep (r, m)).1 ≤ r)
      ∧ (∀ p ∈ l, p.2 = (l.foldl bestStep (r, m)).2 →
          (l.foldl bestStep (r, m)).1 ≤ p.1) := by
  induction l with
  | nil =>
    intro r m
    refine ⟨le_refl _, ?_, Or.inl rfl, fun _ => le_refl _, ?_⟩
    · intro p hp
      exact absurd hp (List.not_mem_nil _)
    · intro p hp
      exact absurd hp (List.not_mem_nil _)
  | cons e rest ih =>
    obtain ⟨v, a⟩ := e
    intro r m
    simp only [List.foldl_cons]
    rcases lt_trichotomy m a with h1 | h1 | h1
    · rw [bestStep_gt' h1]
      obtain ⟨ih1, ih2, ih3, ih4, ih5⟩ := ih v a
      refine ⟨le_trans (le_of_lt h1) ih1, ?_, ?_, ?_, ?_⟩
      · intro p hp
        rcases List.mem_cons.mp hp with hh | ht
        · rw [hh]
          exact ih1
        · exact ih2 p ht
      · rcases ih3 with h | ⟨p, hp, he⟩
        · exact Or.inr ⟨(v, a), List.mem_cons_self _ _, h⟩
        · exact Or.inr ⟨p, List.mem_cons_of_mem _ hp, he⟩
      · intro h
        exact absurd (lt_of_lt_of_le h1 (h ▸ ih1)) (lt_irrefl m)
      · intro p hp hpe
        rcases List.mem_cons.mp hp with hh | ht
        · rw [hh]
          exact ih4 ((congrArg Prod.snd hh) ▸ hpe).symm
        · exact ih5 p ht hpe
    · rw [bestStep_eq' h1.symm]
      obtain ⟨ih1, ih2, ih3, ih4, ih5⟩ := ih (if v < r then v else r) m
      have hqr : (if v < r then v else r) ≤ r := by
        rcases lt_or_le v r with h | h
        · rw [if_pos h]; exact le_of_lt h
        · rw [if_neg (not_lt.mpr h)]
      have hqv : (if v < r then v else r) ≤ v := by
        rcases lt_or_le v r with h | h
        · rw [if_pos h]
        · rw [if_neg (not_lt.mpr h)]; exact h
      refine ⟨ih1, ?_, ?_, ?_, ?_⟩
      · intro p hp
        rcases List.mem_cons.mp hp with hh | ht
        · rw [hh]
          exact h1 ▸ ih1
        · exact ih2 p ht
      · rcases ih3 with h | ⟨p, hp, he⟩
        · rcases lt_or_le v r with hvr | hvr
          · refine Or.inr ⟨(v, a), List.mem_cons_self _ _, ?_⟩
            rw [if_pos hvr] at h
            rw [if_pos hvr, h, h1]
          · rw [if_neg (not_lt.mpr hvr)] at h
            rw [if_neg (not_lt.mpr hvr)]
            exact Or.inl h
        · exact Or.inr ⟨p, List.mem_cons_of_mem _ hp, he⟩
      · intro h
        exact le_trans (ih4 h) hqr
      · intro p hp hpe
        rcases List.mem_cons.mp hp with hh | ht
        · rw [hh]
          have hp2 : p.2 = a := congrArg Prod.snd hh
          have ha : (rest.foldl bestStep (if v < r then v else r, m)).2 = m := by
            rw [← hpe, hp2, ← h1]
          exact le_trans (ih4 ha) hqv
        · exact ih5 p ht hpe
    · rw [bestStep_lt' h1]
      obtain ⟨ih1, ih2, ih3, ih4, ih5⟩ := ih r m
      refine ⟨ih1, ?_, ?_, ih4, ?_⟩
      · intro p hp
        rcases List.mem_cons.mp hp with hh | ht
        · rw [hh]
          exact le_trans (le_of_lt h1) ih1
        · exact ih2 p ht
      · rcases ih3 with h | ⟨p, hp, he⟩
        · exact Or.inl h
        · exact Or.inr ⟨p, List.mem_cons_of_mem _ hp, he⟩
      · intro p hp hpe
        rcases List.mem_cons.mp hp with hh | ht
        · exfalso
          have hp2 : p.2 = a := congrArg Prod.snd hh
          have : a = (rest.foldl bestStep (r, m)).2 := by rw [← hp2, hpe]
          exact absurd (lt_of_lt_of_le h1 ih1) (not_lt.mpr this.symm.le)
        · exact ih5 p ht hpe

/-! ### Claim theorems -/

/-- C2: On the modern path, given a successfully fetched version resource,
`NumInstances` returns the configured manual-scaling instance count with no
error exactly when manual scaling is set, and otherwise returns the error
naming the version and stating it is not using manual scaling; the two
outcomes are mutually exclusive and exhaustive. -/
theorem NumInstances_manual_scaling_dichotomy (version : String) (v : Version) :
    (∀ n : Int, numInstancesModern version v = .ok n ↔ v.manualScaling = some ⟨n⟩)
    ∧ (numInstancesModern version v
        = .error ("module: version " ++ version ++ " is not using manual scaling")
      ↔ v.manualScaling = none)
    ∧ ((∃ n, numInstancesModern version v = .ok n)
      ∨ numInstancesModern version v
        = .error ("module: version " ++ version ++ " is not using manual scaling")) := by
  obtain ⟨ms, st⟩ := v
  cases ms with
  | none =>
    refine ⟨?_, ?_, Or.inr rfl⟩
    · intro n
      simp [numInstancesModern]
    · simp [numInstancesModern]
  | some m =>
    obtain ⟨i⟩ := m
    refine ⟨?_, ?_, Or.inl ⟨i, rfl⟩⟩
    · intro n
      simp [numInstancesModern]
    · simp [numInstancesModern]

/-- C4: On the modern path, when the fetched service's traffic-split
allocation map is absent (nil split, nil map) or empty, `DefaultVersion`
returns no version and the error naming the module and stating the default
version could not be determined. -/
theorem DefaultVersion_empty_allocations (module : String) :
    DefaultVersionModern module (.ok ⟨none⟩)
      = .error (.msg ("module: could not determine default version for module \x27"
          ++ module ++ "\x27"))
    ∧ DefaultVersionModern module (.ok ⟨some ⟨none⟩⟩)
      = .error (.msg ("module: could not determine default version for module \x27"
          ++ module ++ "\x27"))
    ∧ DefaultVersionModern module (.ok ⟨some ⟨some []⟩⟩)
      = .error (.msg ("module: could not determine default version for module \x27"
          ++ module ++ "\x27")) :=
  ⟨rfl, rfl, rfl⟩

/-- C3: On the modern path, `DefaultVersion` translates a remote fetch
failure with status 404 into the module-not-found error, and propagates
every other remote failure unchanged. -/
theorem DefaultVersion_fetch_error_translation (module info : String) (code : Int) :
    (code = 404 →
      DefaultVersionModern module (.error (.googleapi code info))
        = .error (.msg ("module: Module \x27" ++ module ++ "\x27 not found")))
    ∧ (code ≠ 404 →
      DefaultVersionModern module (.error (.googleapi code info))
        = .error (.remote (.googleapi code info)))
    ∧ DefaultVersionModern module (.error (.other info))
        = .error (.remote (.other info)) := by
  refine ⟨?_, ?_, rfl⟩
  · intro h
    simp [DefaultVersionModern, h]
  · intro h
    simp [DefaultVersionModern, h]

/-- Witness for C3 at concrete inputs: a 404 is translated, a 500 is
propagated unchanged. -/
theorem DefaultVersion_fetch_error_translation_witness :
    DefaultVersionModern "m" (.error (.googleapi 404 "gone"))
      = .error (.msg ("module: Module \x27" ++ "m" ++ "\x27 not found"))
    ∧ DefaultVersionModern "m" (.error (.googleapi 500 "boom"))
      = .error (.remote (.googleapi 500 "boom")) :=
  ⟨(DefaultVersion_fetch_error_translation "m" "gone" 404).1 rfl,
   (DefaultVersion_fetch_error_translation "m" "boom" 500).2.1 (by decide)⟩

/-- C5: Every modern-path mutating call patches with a field mask naming
exactly one field (the manual-scaling instance count for SetNumInstances,
the serving status for Start/Stop) and a payload carrying only that field. -/
theorem patch_requests_touch_one_field (instances : Int) (status : String) :
    (setNumInstancesPatch instances).updateMask = "manualScaling.instances"
    ∧ (setNumInstancesPatch instances).payload.manualScaling = some ⟨instances⟩
    ∧ (setNumInstancesPatch instances).payload.servingStatus = ""
    ∧ (setServingStatusPatch status).updateMask = "servingStatus"
    ∧ (setServingStatusPatch status).payload.servingStatus = status
    ∧ (setServingStatusPatch status).payload.manualScaling = none :=
  ⟨rfl, rfl, rfl, rfl, rfl, rfl⟩

/-- C6: Start sends the literal serving status SERVING and Stop sends
STOPPED, and the operation-identifying token attached to the outbound
request is pairwise distinct across all seven operations. -/
theorem start_stop_literals_distinct_tokens :
    startPatch.payload.servingStatus = "SERVING"
    ∧ stopPatch.payload.servingStatus = "STOPPED"
    ∧ ([Op.list, Op.numInstances, Op.setNumInstances, Op.versions,
        Op.defaultVersion, Op.start, Op.stop].map userAgentOf).Nodup := by
  refine ⟨rfl, rfl, ?_⟩
  decide

/-- C10: In the legacy path of NumInstances, the no-error branch
dereferences the response's instance-count pointer unconditionally: it
faults exactly on a successful response whose count is absent, and never
faults when every successful response carries a present count. -/
theorem NumInstancesLegacy_deref_safety (res : GetNumInstancesResponse) :
    (∀ n : Int, res.instances = some n →
      NumInstancesLegacyDeref (.ok res) = some (.ok n))
    ∧ (res.instances = none → NumInstancesLegacyDeref (.ok res) = none)
    ∧ (NumInstancesLegacyDeref (.ok res) ≠ none ↔ res.instances ≠ none) := by
  obtain ⟨oi⟩ := res
  cases oi with
  | none =>
    refine ⟨?_, fun _ => rfl, ?_⟩
    · intro n h
      exact absurd h (by simp)
    · simp [NumInstancesLegacyDeref]
  | some k =>
    refine ⟨?_, ?_, ?_⟩
    · intro n h
      have : k = n := by simpa using h
      simp [NumInstancesLegacyDeref, this]
    · intro h
      exact absurd h (by simp)
    · simp [NumInstancesLegacyDeref]

/-- Witness for C10: present count 10 is returned, absent count faults. -/
theorem NumInstancesLegacy_deref_safety_witness :
    NumInstancesLegacyDeref (.ok ⟨some 10⟩) = some (.ok 10)
    ∧ NumInstancesLegacyDeref (.ok ⟨none⟩) = none :=
  ⟨(NumInstancesLegacy_deref_safety ⟨some 10⟩).1 10 rfl,
   (NumInstancesLegacy_deref_safety ⟨none⟩).2.1 rfl⟩

/-- C7: For every public operation and every call, the modern path is taken
exactly when the flag lower-cases to "true" at that call, the legacy path
otherwise, and the decision is a function of the per-call environment
snapshot: calls under different flag values take different paths. -/
theorem path_dispatch_per_call (o : Op) (env : Env) :
    (dispatch o env = Path.modern ↔ strToLower (env "MODULES_USE_ADMIN_API") = "true")
    ∧ (dispatch o env = Path.legacy ↔ ¬ strToLower (env "MODULES_USE_ADMIN_API") = "true")
    ∧ (∀ env2 : Env, useAdminAPI env ≠ useAdminAPI env2 →
        dispatch o env ≠ dispatch o env2) := by
  have huse : ∀ e : Env,
      useAdminAPI e = true ↔ strToLower (e "MODULES_USE_ADMIN_API") = "true" := by
    intro e
    simp [useAdminAPI]
  refine ⟨?_, ?_, ?_⟩
  · constructor
    · intro hd
      rcases Bool.eq_false_or_eq_true (useAdminAPI env) with h | h
      · exact (huse env).mp h
      · simp [dispatch, h] at hd
    · intro ht
      simp [dispatch, (huse env).mpr ht]
  · constructor
    · intro hd hflag
      simp [dispatch, (huse env).mpr hflag] at hd
    · intro hflag
      rcases Bool.eq_false_or_eq_true (useAdminAPI env) with h | h
      · exact absurd ((huse env).mp h) hflag
      · simp [dispatch, h]
  · intro env2 hne
    rcases Bool.eq_false_or_eq_true (useAdminAPI env) with h1 | h1 <;>
      rcases Bool.eq_false_or_eq_true (useAdminAPI env2) with h2 | h2
    · exact absurd (h1.trans h2.symm) hne
    · simp [dispatch, h1, h2]
    · simp [dispatch, h1, h2]
    · exact absurd (h1.trans h2.symm) hne

/-- Witness for C7: with the flag "TRUE" the modern path is taken, with the
flag unset the legacy path is taken, for the same operation. -/
theorem path_dispatch_per_call_witness :
    dispatch Op.start (fun _ => "TRUE" : Env) = Path.modern
    ∧ dispatch Op.start (fun _ => "" : Env) = Path.legacy :=
  ⟨(path_dispatch_per_call Op.start (fun _ => "TRUE")).1.mpr (by decide),
   (path_dispatch_per_call Op.start (fun _ => "")).2.1.mpr (by decide)⟩

/-- C1: On the modern path, over a traffic-split allocation map (version
ids nonempty, allocations nonnegative), `DefaultVersion` selects the first
entry encountered whose allocation is exactly 1 when one exists, and
otherwise an entry whose allocation is strictly greatest over all entries,
a tie between equal allocations resolved to the lexicographically smaller
version id. -/
theorem DefaultVersion_selection (module : String) (l : List (String × ℚ))
    (hkeys : ∀ p ∈ l, p.1 ≠ "") (hpos : ∀ p ∈ l, 0 ≤ p.2) :
    (∀ pre v post, l = pre ++ (v, 1) :: post → (∀ q ∈ pre, q.2 ≠ 1) →
      DefaultVersionModern module (.ok ⟨some ⟨some l⟩⟩) = .ok v)
    ∧ ((∀ p ∈ l, p.2 ≠ 1) → l ≠ [] →
      ∃ p ∈ l, DefaultVersionModern module (.ok ⟨some ⟨some l⟩⟩) = .ok p.1 ∧
        ∀ q ∈ l, q.2 < p.2 ∨ (q.2 = p.2 ∧ p.1 ≤ q.1)) := by
  constructor
  · intro pre v post hsplit hpre
    have hscan : scanAllocations l "" (-1) = v := by
      rw [hsplit]
      exact scanAllocations_append_one v pre post "" (-1) hpre
    have hv : v ≠ "" :=
      hkeys (v, 1) (hsplit ▸ List.mem_append_right _ (List.mem_cons_self _ _))
    simp only [DefaultVersionModern]
    rw [hscan, if_neg hv]
  · intro hno1 hne
    obtain ⟨s1, s2, s3, s4, s5⟩ := foldl_bestStep_spec l "" (-1)
    have hscan : scanAllocations l "" (-1) = (l.foldl bestStep ("", -1)).1 :=
      scanAllocations_eq_foldl l "" (-1) hno1
    rcases s3 with hacc | ⟨p, hp, he⟩
    · exfalso
      obtain ⟨q, hq⟩ := List.exists_mem_of_ne_nil l hne
      have h1 : q.2 ≤ (l.foldl bestStep ("", -1)).2 := s2 q hq
      rw [hacc] at h1
      have h2 : (0 : ℚ) ≤ q.2 := hpos q hq
      have : (0 : ℚ) ≤ -1 := le_trans h2 h1
      linarith
    · have hf1 : (l.foldl bestStep ("", -1)).1 = p.1 := congrArg Prod.fst he
      have hf2 : (l.foldl bestStep ("", -1)).2 = p.2 := congrArg Prod.snd he
      refine ⟨p, hp, ?_, ?_⟩
      · have hv : p.1 ≠ "" := hkeys p hp
        simp only [DefaultVersionModern]
        rw [hscan, hf1, if_neg hv]
      · intro q hq
        have hle : q.2 ≤ p.2 := hf2 ▸ s2 q hq
        rcases lt_or_eq_of_le hle with hlt | heq
        · exact Or.inl hlt
        · refine Or.inr ⟨heq, ?_⟩
          have := s5 q hq (heq.trans hf2.symm)
          rw [hf1] at this
          exact this

/-- Witness for C1 at the spec's first example: allocations
v1 to 1, v2 to 0 select v1. -/
theorem DefaultVersion_selection_witness :
    DefaultVersionModern "default" (.ok ⟨some ⟨some [("v1", (1 : ℚ)), ("v2", 0)]⟩⟩)
      = .ok "v1" :=
  (DefaultVersion_selection "default" [("v1", (1 : ℚ)), ("v2", 0)]
      (by decide) (by decide)).1
    [] "v1" [("v2", 0)] rfl (by decide)

/-- C9: For every allocation map in which at most one entry has allocation
exactly 1, the version `DefaultVersion`'s scanning loop selects is the same
for every enumeration order of the map's entries. -/
theorem DefaultVersion_order_independent (module : String) (l₁ l₂ : List (String × ℚ))
    (hperm : l₁.Perm l₂)
    (hone : l₁.countP (fun p => decide (p.2 = 1)) ≤ 1) :
    DefaultVersionModern module (.ok ⟨some ⟨some l₁⟩⟩)
      = DefaultVersionModern module (.ok ⟨some ⟨some l₂⟩⟩) := by
  have hscan : scanAllocations l₁ "" (-1) = scanAllocations l₂ "" (-1) := by
    have hcase := Nat.lt_or_ge (l₁.countP (fun p => decide (p.2 = 1))) 1
    rcases hcase with h0 | h1
    · have h0 : l₁.countP (fun p => decide (p.2 = 1)) = 0 := Nat.lt_one_iff.mp h0
      have h0' : l₂.countP (fun p => decide (p.2 = 1)) = 0 := by
        rw [← hperm.countP_eq]
        exact h0
      have hn1 : ∀ p ∈ l₁, p.2 ≠ 1 := by
        intro p hp
        simpa using List.countP_eq_zero.mp h0 p hp
      have hn2 : ∀ p ∈ l₂, p.2 ≠ 1 := by
        intro p hp
        simpa using List.countP_eq_zero.mp h0' p hp
      rw [scanAllocations_eq_foldl l₁ "" (-1) hn1,
        scanAllocations_eq_foldl l₂ "" (-1) hn2,
        foldl_bestStep_perm hperm ("", -1)]
    · have hc1 : l₁.countP (fun p => decide (p.2 = 1)) = 1 := le_antisymm hone h1
      have hf : (l₁.filter (fun p => decide (p.2 = 1))).length = 1 := by
        rw [← List.countP_eq_length_filter]
        exact hc1
      obtain ⟨e, hef⟩ := List.length_eq_one.mp hf
      have hemem : e ∈ l₁.filter (fun p => decide (p.2 = 1)) := by
        rw [hef]
        exact List.mem_cons_self e []
      obtain ⟨he1, hepr⟩ := List.mem_filter.mp hemem
      have he2 : e.2 = 1 := of_decide_eq_true hepr
      have hef2 : l₂.filter (fun p => decide (p.2 = 1)) = [e] := by
        have hpf : (l₂.filter (fun p => decide (p.2 = 1))).Perm [e] :=
          hef ▸ (hperm.filter (fun p => decide (p.2 = 1))).symm
        exact List.perm_singleton.mp hpf
      have hone1 : (e.1, (1 : ℚ)) = e := by
        rw [← he2]
      have huniq1 : ∀ p ∈ l₁, p.2 = 1 → p.1 = e.1 := by
        intro p hp hp1
        have hpm : p ∈ l₁.filter (fun p => decide (p.2 = 1)) :=
          List.mem_filter.mpr ⟨hp, decide_eq_true hp1⟩
        rw [hef] at hpm
        have : p = e := by simpa using hpm
        rw [this]
      have huniq2 : ∀ p ∈ l₂, p.2 = 1 → p.1 = e.1 := by
        intro p hp hp1
        have hpm : p ∈ l₂.filter (fun p => decide (p.2 = 1)) :=
          List.mem_filter.mpr ⟨hp, decide_eq_true hp1⟩
        rw [hef2] at hpm
        have : p = e := by simpa using hpm
        rw [this]
      have he1' : (e.1, (1 : ℚ)) ∈ l₁ := by
        rw [hone1]
        exact he1
      have he2' : (e.1, (1 : ℚ)) ∈ l₂ := by
        rw [hone1]
        exact hperm.mem_iff.mp he1
      rw [scanAllocations_of_one e.1 l₁ "" (-1) he1' huniq1,
        scanAllocations_of_one e.1 l₂ "" (-1) he2' huniq2]
  simp only [DefaultVersionModern]
  rw [hscan]

/-- Witness for C9: a two-entry map without a full allocation gives the
same default version in both enumeration orders. -/
theorem DefaultVersion_order_independent_witness :
    DefaultVersionModern "m" (.ok ⟨some ⟨some [("version-b", (0 : ℚ)), ("version-a", 0)]⟩⟩)
      = DefaultVersionModern "m"
          (.ok ⟨some ⟨some [("version-a", (0 : ℚ)), ("version-b", 0)]⟩⟩) :=
  DefaultVersion_order_independent "m" _ _
    (List.Perm.swap ("version-a", (0 : ℚ)) ("version-b", 0) [])
    (by decide)

lemma dropWhile_ne_of_append (c : Char) :
    ∀ (pre post : List Char), c ∉ pre →
      (pre ++ c :: post).dropWhile (fun x => x ≠ c) = c :: post
  | [], post, _ => by
    simp [List.dropWhile_cons]
  | d :: pre, post, h => by
    have hd : d ≠ c := fun he => h (by rw [← he]; exact List.mem_cons_self d pre)
    have h' : c ∉ pre := fun hm => h (List.mem_cons_of_mem _ hm)
    simp only [List.cons_append, List.dropWhile_cons]
    rw [if_pos (decide_eq_true hd)]
    exact dropWhile_ne_of_append c pre post h'

/-- C8: Project-id resolution returns the explicit project-id variable when
it is set; otherwise it derives the result from the application-id variable
by taking the substring after the tilde separator and stripping a
domain:rest prefix down to rest; the resolution depends only on the
environment snapshot's three variables. -/
theorem getProjectID_resolution (env : Env) :
    (env "GOOGLE_CLOUD_PROJECT" ≠ "" → getProjectID env = env "GOOGLE_CLOUD_PROJECT")
    ∧ (∀ pre post : List Char, env "GOOGLE_CLOUD_PROJECT" = "" →
        (appIDof env).data = pre ++ '~' :: post → '~' ∉ pre →
        ((∀ d r : List Char, post = d ++ ':' :: r → ':' ∉ d →
            getProjectID env = String.mk r)
          ∧ (':' ∉ post → getProjectID env = String.mk post)))
    ∧ (∀ env2 : Env, env "GOOGLE_CLOUD_PROJECT" = env2 "GOOGLE_CLOUD_PROJECT" →
        env "GAE_APPLICATION" = env2 "GAE_APPLICATION" →
        env "APPLICATION_ID" = env2 "APPLICATION_ID" →
        getProjectID env = getProjectID env2) := by
  refine ⟨?_, ?_, ?_⟩
  · intro h
    simp only [getProjectID]
    rw [if_neg h]
  · intro pre post h0 hdata htil
    have hp1 : afterChar '~' (appIDof env) = String.mk post := by
      unfold afterChar
      rw [hdata, dropWhile_ne_of_append '~' pre post htil]
      rfl
    have hmem : '~' ∈ (appIDof env).data := by
      rw [hdata]
      exact List.mem_append_right _ (List.mem_cons_self _ _)
    constructor
    · intro d r hpost hcol
      have hmem2 : ':' ∈ (String.mk post).data := by
        show ':' ∈ post
        rw [hpost]
        exact List.mem_append_right _ (List.mem_cons_self _ _)
      have hp2 : afterChar ':' (String.mk post) = String.mk r := by
        unfold afterChar
        show String.mk ((post.dropWhile fun x => x ≠ ':').tail) = String.mk r
        rw [hpost, dropWhile_ne_of_append ':' d r hcol]
        rfl
      simp only [getProjectID]
      rw [if_pos h0, if_pos hmem, hp1, if_pos hmem2, hp2]
    · intro hcol
      have hnmem : ¬ ':' ∈ (String.mk post).data := hcol
      simp only [getProjectID]
      rw [if_pos h0, if_pos hmem, hp1, if_neg hnmem]
  · intro env2 h1 h2 h3
    simp only [getProjectID, appIDof, h1, h2, h3]

/-- Witness for C8: with no explicit project id and application id
"s~google.com:myproj", resolution yields "myproj". -/
theorem getProjectID_resolution_witness :
    getProjectID (fun k => if k = "GAE_APPLICATION" then "s~google.com:myproj" else "" : Env)
      = String.mk "myproj".data :=
  ((getProjectID_resolution
        (fun k => if k = "GAE_APPLICATION" then "s~google.com:myproj" else "")).2.1
      "s".data "google.com:myproj".data (by decide) (by decide) (by decide)).1
    "google.com".data "myproj".data (by decide) (by decide)

end AppengineModule
